import Mathlib

/-!
Verification of the version-upgrade resolution engine of vscode-npmx.

The definitions below are shallow embeddings of the TypeScript source:
* `parseSemverTuple`, `getUpgradeOptions`, `compare` from `src/state.ts`
  (the semver utility module),
* the packument normalization from `src/utils/api/package.ts`,
* spec-modelled definitions for the memoize cache and the version
  specifier parser/formatter, whose implementations are not part of the
  sources at hand.

JS strings are modelled as `String` (operated on through `String.data`,
a `List Char`), JS numbers arising from `Number(digits)` as `Nat`, and
the integer result of `compare` as `Int`.  Fallible operations return
`Option`.
-/

namespace Npmx

/-- `SemverTuple` from `state.ts`: `[number, number, number]`. -/
abbrev SemverTuple := Nat × Nat × Nat

/-- Decimal value of a digit run, the embedding of JS `Number(match[i])`
on a capture consisting of decimal digits. -/
def natOfDigits (ds : List Char) : Nat :=
  ds.foldl (fun acc c => 10 * acc + (c.toNat - 48)) 0

/-- Core of `parseSemverTuple` over the character list of the input.
Embeds the regex match `^(\d+)\.(\d+)\.(\d+)`: each `\d+` is greedy and
is followed by a literal dot (a digit can never match the escaped dot,
so the greedy maximal runs are exactly what the JS engine captures), and
anything after the third run is ignored. -/
def parseSemverCore (l : List Char) : Option SemverTuple :=
  let d1 := l.takeWhile Char.isDigit
  let r1 := l.dropWhile Char.isDigit
  if d1 = [] then none else
  if r1.head? ≠ some '.' then none else
  let l2 := r1.tail
  let d2 := l2.takeWhile Char.isDigit
  let r2 := l2.dropWhile Char.isDigit
  if d2 = [] then none else
  if r2.head? ≠ some '.' then none else
  let l3 := r2.tail
  let d3 := l3.takeWhile Char.isDigit
  if d3 = [] then none else
  some (natOfDigits d1, natOfDigits d2, natOfDigits d3)

/-- `parseSemverTuple` from `state.ts`. -/
def parseSemverTuple (s : String) : Option SemverTuple :=
  parseSemverCore s.data

/-- Embedding of JS `s.includes('-')`. -/
def containsDash (s : String) : Bool :=
  s.data.contains '-'

/-- `compare` from `state.ts`.  The source asserts both parses succeed
(`parseSemverTuple(v)!`); when one fails the JS arithmetic yields `NaN`
and every comparison with it is false, which the `Option` models:
`none` makes every `cmpGt` test below false. -/
def compare (v1 v2 : String) : Option Int :=
  match parseSemverTuple v1, parseSemverTuple v2 with
  | some t1, some t2 =>
    some (if t1.1 ≠ t2.1 then (t1.1 : Int) - t2.1
          else if t1.2.1 ≠ t2.2.1 then (t1.2.1 : Int) - t2.2.1
          else (t1.2.2 : Int) - t2.2.2)
  | _, _ => none

/-- The test `compare(ver, max) > 0` from the update steps of
`getUpgradeOptions`; false when a parse fails (NaN comparison). -/
def cmpGt (a b : String) : Bool :=
  match compare a b with
  | some d => decide (0 < d)
  | none => false

/-- `VersionUpgradeOptions` from `state.ts`; absent optional fields are
`none`. -/
structure VersionUpgradeOptions where
  major : Option String := none
  minor : Option String := none
  patch : Option String := none
  prerelease : Option String := none
  latest : String
deriving DecidableEq, Repr

/-- The running maxima `(maxPatch, maxMinor, maxMajor)` of the candidate
loop in `getUpgradeOptions`. -/
abbrev TierAcc := Option String × Option String × Option String

/-- `if (!max || compare(ver, max) > 0) max = ver` from the loop body. -/
def updMax (acc : Option String) (ver : String) : Option String :=
  match acc with
  | none => some ver
  | some m => if cmpGt ver m then some ver else some m

/-- One iteration of the candidate loop of `getUpgradeOptions`
(`state.ts` lines 38-65): skip unparseable versions, skip versions
containing `-`, then update each tier's maximum independently. -/
def stepTier (cur : SemverTuple) (acc : TierAcc) (ver : String) : TierAcc :=
  match parseSemverTuple ver with
  | none => acc
  | some t =>
    if containsDash ver then acc
    else
      let mp := if t.1 = cur.1 ∧ t.2.1 = cur.2.1 ∧ t.2.2 > cur.2.2
                then updMax acc.1 ver else acc.1
      let mn := if t.1 = cur.1 ∧ t.2.1 > cur.2.1
                then updMax acc.2.1 ver else acc.2.1
      let mj := if t.1 > cur.1
                then updMax acc.2.2 ver else acc.2.2
      (mp, mn, mj)

/-- `getUpgradeOptions` from `state.ts`. -/
def getUpgradeOptions (current : String) (allVersions : List String)
    (latestTag : String) : VersionUpgradeOptions :=
  match parseSemverTuple current with
  | none => { latest := latestTag }
  | some cur =>
    let acc := allVersions.foldl (stepTier cur) (none, none, none)
    let keep : Option String → Option String := fun m =>
      if latestTag ≠ current then
        match m with
        | some v => if v ≠ latestTag then some v else none
        | none => none
      else none
    { latest := latestTag
      patch := keep acc.1
      minor := keep acc.2.1
      major := keep acc.2.2
      prerelease :=
        if containsDash latestTag ∧ ¬ containsDash current
        then some latestTag else none }

/-- Strict lexicographic order on semver tuples, major then minor then
patch; the order `compare` realizes through differences. -/
def lexGtT (t1 t2 : SemverTuple) : Prop :=
  t1.1 > t2.1 ∨
    (t1.1 = t2.1 ∧
      (t1.2.1 > t2.2.1 ∨ (t1.2.1 = t2.2.1 ∧ t1.2.2 > t2.2.2)))

instance (t1 t2 : SemverTuple) : Decidable (lexGtT t1 t2) := by
  unfold lexGtT; infer_instance

/-- The patch-tier candidate test of the loop: parseable, no `-`, same
major and minor, strictly larger patch. -/
def isPatchCand (cur : SemverTuple) (v : String) : Bool :=
  !containsDash v &&
    match parseSemverTuple v with
    | some t =>
      decide (t.1 = cur.1) && decide (t.2.1 = cur.2.1) &&
        decide (t.2.2 > cur.2.2)
    | none => false

/-- The minor-tier candidate test: parseable, no `-`, same major,
strictly larger minor. -/
def isMinorCand (cur : SemverTuple) (v : String) : Bool :=
  !containsDash v &&
    match parseSemverTuple v with
    | some t => decide (t.1 = cur.1) && decide (t.2.1 > cur.2.1)
    | none => false

/-- The major-tier candidate test: parseable, no `-`, strictly larger
major. -/
def isMajorCand (cur : SemverTuple) (v : String) : Bool :=
  !containsDash v &&
    match parseSemverTuple v with
    | some t => decide (t.1 > cur.1)
    | none => false

/-- The maximum of a list of version strings under `cmpGt`, keeping the
earliest element among comparator-equal ones (first-wins): a later
element replaces the current best only when strictly greater. -/
def pickFirstMax : List String → Option String
  | [] => none
  | v :: rest =>
    match pickFirstMax rest with
    | none => some v
    | some m => if cmpGt m v then some m else some v

/-- Combination of an optional current best with the best of the
remaining list, preferring the earlier element on ties. -/
def mergeMax (a b : Option String) : Option String :=
  match a, b with
  | none, b => b
  | some a, none => some a
  | some a, some m => if cmpGt m a then some m else some a

/-- The population filter of `getUpgradeOptions` (`state.ts` lines
69-76): a tier's maximum is surfaced only when the latest tag differs
from the current version and the maximum differs from the latest tag. -/
def keepAux (latestTag current : String) (m : Option String) :
    Option String :=
  if latestTag ≠ current then
    match m with
    | some v => if v ≠ latestTag then some v else none
    | none => none
  else none

/-- A capture of `\d+`: a nonempty run of decimal digits. -/
def DigitRun (ds : List Char) : Prop :=
  ds ≠ [] ∧ ∀ c ∈ ds, c.isDigit = true

/-- Raw per-version metadata as read by the normalization in
`getPackageInfo`: the optional deprecation message and whether
`dist.attestations` is present. -/
structure RawVersionMeta where
  deprecated : Option String
  hasAttestations : Bool
deriving DecidableEq, Repr

/-- The slice of a raw registry packument that `getPackageInfo` reads:
the versions map, the set of version keys carrying a publish timestamp
(truthy `pkg.time[v]`), and the `dist-tags` map. -/
structure RawPackument where
  versions : List (String × RawVersionMeta)
  time : List String
  distTags : List (String × String)
deriving DecidableEq, Repr

/-- `ResolvedPackumentVersion` from `package.ts`. -/
structure ResolvedPackumentVersion where
  version : String
  tag : Option String
  hasProvenance : Bool
  deprecated : Option String
deriving DecidableEq, Repr

/-- `ResolvedPackument` from `package.ts`. -/
structure ResolvedPackument where
  versions : List (String × ResolvedPackumentVersion)
deriving DecidableEq, Repr

/-- `Object.keys(pkg.versions).filter((v) => pkg.time[v])` from
`getPackageInfo`. -/
def filteredVersions (pkg : RawPackument) :
    List (String × RawVersionMeta) :=
  pkg.versions.filter (fun p => pkg.time.contains p.1)

/-- One step of the `dist-tags` loop of `getPackageInfo`:
`resolvedVersions[version].tag = tag`.  `none` models the TypeError
thrown when `resolvedVersions[version]` is undefined, i.e. when the
tag's target is absent from the filtered map. -/
def setTag (m : List (String × ResolvedPackumentVersion))
    (tag version : String) :
    Option (List (String × ResolvedPackumentVersion)) :=
  if m.any (fun p => p.1 = version) then
    some (m.map (fun p =>
      if p.1 = version then (p.1, { p.2 with tag := some tag }) else p))
  else none

/-- The normalization performed by `getPackageInfo` after a successful
fetch (`package.ts` lines 25-45): build the filtered per-version map,
then attach every dist-tag to its target version, propagating the
TypeError (`none`) if any target is missing. -/
def normalizePackument (pkg : RawPackument) : Option ResolvedPackument :=
  let base := (filteredVersions pkg).map (fun p =>
    (p.1, { version := p.1, tag := none,
            hasProvenance := p.2.hasAttestations,
            deprecated := p.2.deprecated : ResolvedPackumentVersion }))
  (pkg.distTags.foldl
    (fun acc p => acc.bind (fun m => setTag m p.1 p.2))
    (some base)).map (fun m => ⟨m⟩)

/-- Modelled from the spec: one entry of the memoize cache wrapped
around `getPackageInfo` (the `memoize` helper from the repository's
`src/utils/memoize.ts` is not among the sources; spec section 4.4): a
name is either bound to the pending handle of the single in-flight
fetch it coalesces onto, or to the resolved value, immutable once
resolved. -/
inductive CacheEntry (α : Type) where
  | pending (fetchId : Nat)
  | resolved (value : α)
deriving DecidableEq, Repr

/-- Modelled from the spec: the cache's state — the entry map keyed by
package name, the id for the next fetch, and the log of initiated
fetches (newest first), which counts the network requests issued. -/
structure CacheState (α : Type) where
  entries : List (String × CacheEntry α)
  nextFetchId : Nat
  fetchLog : List (Nat × String)
deriving DecidableEq, Repr

/-- What a `get` call observes: a pending handle (a promise, identified
by the fetch it belongs to) or the synchronously returned cached
value. -/
inductive GetResult (α : Type) where
  | pendingHandle (fetchId : Nat)
  | cached (value : α)
deriving DecidableEq, Repr

/-- The entry currently stored for `name`. -/
def lookupEntry {α : Type} (st : CacheState α) (name : String) :
    Option (CacheEntry α) :=
  (st.entries.find? (fun p => decide (p.1 = name))).map Prod.snd

/-- Modelled from the spec: the memoized `getPackageInfo` call.  A miss
initiates exactly one fetch and stores its pending handle; a hit on a
pending entry returns that same handle with no new fetch; a hit on a
resolved entry returns the value synchronously and changes nothing. -/
def cacheGet {α : Type} (st : CacheState α) (name : String) :
    GetResult α × CacheState α :=
  match lookupEntry st name with
  | some (CacheEntry.pending id) => (GetResult.pendingHandle id, st)
  | some (CacheEntry.resolved v) => (GetResult.cached v, st)
  | none =>
    (GetResult.pendingHandle st.nextFetchId,
     { entries := (name, CacheEntry.pending st.nextFetchId) :: st.entries,
       nextFetchId := st.nextFetchId + 1,
       fetchLog := (st.nextFetchId, name) :: st.fetchLog })

/-- Resolution of one entry: a pending entry for `name` becomes
resolved; resolved entries are write-once and never overwritten. -/
def resolveEntry {α : Type} (name : String) (v : α)
    (p : String × CacheEntry α) : String × CacheEntry α :=
  if p.1 = name then
    match p.2 with
    | CacheEntry.pending _ => (p.1, CacheEntry.resolved v)
    | e => (p.1, e)
  else p

/-- Modelled from the spec: completion of the in-flight fetch for
`name`, filling its entry with the fetched value. -/
def cacheResolve {α : Type} (st : CacheState α) (name : String)
    (v : α) : CacheState α :=
  { st with entries := st.entries.map (resolveEntry name v) }

/-- An event the cache can undergo: a `get` call or a fetch
completion. -/
inductive CacheOp (α : Type) where
  | get (name : String)
  | resolve (name : String) (v : α)

/-- State transition of the cache under one event. -/
def applyOp {α : Type} (st : CacheState α) : CacheOp α → CacheState α
  | CacheOp.get n => (cacheGet st n).2
  | CacheOp.resolve n v => cacheResolve st n v

/-- State after a sequence of events. -/
def applyOps {α : Type} (st : CacheState α) (ops : List (CacheOp α)) :
    CacheState α :=
  ops.foldl applyOp st

/-- Modelled from the spec: `VersionSpecifier`, the structured form a
declared version string parses to — the protocol/prefix and the
semantic-version core (`parseVersion`/`formatVersion` from the
repository's `src/utils/version.ts` are not among the sources; spec
sections 4.1 and 4.5). -/
structure VersionSpecifier where
  protocol : String
  semver : String
deriving DecidableEq, Repr

/-- Modelled from the spec: the position of the first suffix of the
input at which the semantic-version core pattern matches; the parser
splits the specifier there, prefix before, core after. -/
def firstSemverIdx : List Char → Option Nat
  | [] => none
  | c :: rest =>
    if (parseSemverCore (c :: rest)).isSome then some 0
    else (firstSemverIdx rest).map (· + 1)

/-- Modelled from the spec: `parseVersion` — locate the
semantic-version core and separate the leading protocol/alias prefix
from it; `none` when no core can be located. -/
def parseVersion (s : String) : Option VersionSpecifier :=
  (firstSemverIdx s.data).map (fun i =>
    { protocol := ⟨s.data.take i⟩, semver := ⟨s.data.drop i⟩ })

/-- Modelled from the spec: `formatVersion` — reconstitute the
protocol/prefix exactly as parsed, followed by the specifier's
semantic-version core. -/
def formatVersion (sp : VersionSpecifier) : String :=
  sp.protocol ++ sp.semver

theorem lexGtT_trans {a b c : SemverTuple} (h1 : lexGtT a b)
    (h2 : lexGtT b c) : lexGtT a c := by
  unfold lexGtT at *
  omega

theorem not_lexGtT_trans {a b c : SemverTuple} (h1 : ¬ lexGtT a b)
    (h2 : ¬ lexGtT b c) : ¬ lexGtT a c := by
  unfold lexGtT at *
  omega

theorem cmpGt_eq_lexGtT {v w : String} {tv tw : SemverTuple}
    (hv : parseSemverTuple v = some tv)
    (hw : parseSemverTuple w = some tw) :
    cmpGt v w = decide (lexGtT tv tw) := by
  have hc : compare v w =
      some (if tv.1 ≠ tw.1 then (tv.1 : Int) - tw.1
            else if tv.2.1 ≠ tw.2.1 then (tv.2.1 : Int) - tw.2.1
            else (tv.2.2 : Int) - tw.2.2) := by
    unfold compare
    rw [hv, hw]
  unfold cmpGt
  rw [hc]
  rw [decide_eq_decide]
  unfold lexGtT
  split_ifs <;> omega

theorem pickFirstMax_mem {l : List String} {m : String}
    (h : pickFirstMax l = some m) : m ∈ l := by
  induction l with
  | nil => simp [pickFirstMax] at h
  | cons v rest ih =>
    cases hr : pickFirstMax rest with
    | none =>
      have h' : pickFirstMax (v :: rest) = some v := by
        rw [pickFirstMax, hr]
      rw [h'] at h
      obtain rfl := Option.some_inj.mp h
      exact List.mem_cons_self _ _
    | some m' =>
      have h' : pickFirstMax (v :: rest) =
          if cmpGt m' v then some m' else some v := by
        rw [pickFirstMax, hr]
      rw [h'] at h
      by_cases hc : cmpGt m' v = true
      · rw [if_pos hc] at h
        obtain rfl := Option.some_inj.mp h
        exact List.mem_cons_of_mem _ (ih hr)
      · rw [if_neg hc] at h
        obtain rfl := Option.some_inj.mp h
        exact List.mem_cons_self _ _

theorem foldl_updMax_eq (l : List String)
    (hl : ∀ x ∈ l, (parseSemverTuple x).isSome) :
    ∀ a : String, (parseSemverTuple a).isSome = true →
      l.foldl updMax (some a) = mergeMax (some a) (pickFirstMax l) := by
  induction l with
  | nil =>
    intro a _
    rfl
  | cons v rest ih =>
    intro a ha
    have hv : (parseSemverTuple v).isSome = true :=
      hl v (List.mem_cons_self _ _)
    have hrest : ∀ x ∈ rest, (parseSemverTuple x).isSome :=
      fun x hx => hl x (List.mem_cons_of_mem _ hx)
    obtain ⟨ta, hta⟩ := Option.isSome_iff_exists.mp ha
    obtain ⟨tv, htv⟩ := Option.isSome_iff_exists.mp hv
    have hstep : updMax (some a) v = some (if cmpGt v a then v else a) := by
      show (if cmpGt v a then some v else some a) = _
      split_ifs <;> rfl
    have hb : (parseSemverTuple (if cmpGt v a then v else a)).isSome = true := by
      split_ifs <;> assumption
    rw [List.foldl_cons, hstep, ih hrest _ hb]
    cases hm : pickFirstMax rest with
    | none =>
      have hc : pickFirstMax (v :: rest) = some v := by
        rw [pickFirstMax, hm]
      rw [hc]
      show some (if cmpGt v a then v else a) =
        (if cmpGt v a then some v else some a)
      split_ifs <;> rfl
    | some m =>
      obtain ⟨tm, htm⟩ :=
        Option.isSome_iff_exists.mp (hrest m (pickFirstMax_mem hm))
      have hcva : cmpGt v a = decide (lexGtT tv ta) := cmpGt_eq_lexGtT htv hta
      have hcmv : cmpGt m v = decide (lexGtT tm tv) := cmpGt_eq_lexGtT htm htv
      have hcma : cmpGt m a = decide (lexGtT tm ta) := cmpGt_eq_lexGtT htm hta
      have hc : pickFirstMax (v :: rest) =
          if cmpGt m v then some m else some v := by
        rw [pickFirstMax, hm]
      rw [hc]
      by_cases hva : lexGtT tv ta <;> by_cases hmv : lexGtT tm tv
      · have e1 : cmpGt v a = true := by rw [hcva]; exact decide_eq_true hva
        have e2 : cmpGt m v = true := by rw [hcmv]; exact decide_eq_true hmv
        have e3 : cmpGt m a = true := by
          rw [hcma]; exact decide_eq_true (lexGtT_trans hmv hva)
        simp [mergeMax, e1, e2, e3]
      · have e1 : cmpGt v a = true := by rw [hcva]; exact decide_eq_true hva
        have e2 : cmpGt m v = false := by
          rw [hcmv]; exact decide_eq_false hmv
        simp [mergeMax, e1, e2]
      · have e1 : cmpGt v a = false := by
          rw [hcva]; exact decide_eq_false hva
        have e2 : cmpGt m v = true := by rw [hcmv]; exact decide_eq_true hmv
        simp [mergeMax, e1, e2]
      · have e1 : cmpGt v a = false := by
          rw [hcva]; exact decide_eq_false hva
        have e2 : cmpGt m v = false := by
          rw [hcmv]; exact decide_eq_false hmv
        have e3 : cmpGt m a = false := by
          rw [hcma]; exact decide_eq_false (not_lexGtT_trans hmv hva)
        simp [mergeMax, e1, e2, e3]

theorem foldl_updMax_none (l : List String)
    (hl : ∀ x ∈ l, (parseSemverTuple x).isSome) :
    l.foldl updMax none = pickFirstMax l := by
  cases l with
  | nil => rfl
  | cons v rest =>
    have hv : (parseSemverTuple v).isSome :=
      hl v (List.mem_cons_self _ _)
    have hrest : ∀ x ∈ rest, (parseSemverTuple x).isSome :=
      fun x hx => hl x (List.mem_cons_of_mem _ hx)
    have h1 : updMax none v = some v := rfl
    rw [List.foldl_cons, h1, foldl_updMax_eq rest hrest v hv]
    rw [pickFirstMax]
    cases hm : pickFirstMax rest <;> rfl

theorem stepTier_fst (cur : SemverTuple) (acc : TierAcc) (v : String) :
    (stepTier cur acc v).1 =
      if isPatchCand cur v then updMax acc.1 v else acc.1 := by
  unfold stepTier isPatchCand
  cases hp : parseSemverTuple v with
  | none => simp
  | some t =>
    by_cases hd : containsDash v
    · simp [hd]
    · by_cases hg : t.1 = cur.1 ∧ t.2.1 = cur.2.1 ∧ t.2.2 > cur.2.2
      · simp [hd, hg]
      · simp only [Bool.not_eq_true] at hd
        simp [hd, hg]
        rw [if_neg (by omega)]

theorem stepTier_snd (cur : SemverTuple) (acc : TierAcc) (v : String) :
    (stepTier cur acc v).2.1 =
      if isMinorCand cur v then updMax acc.2.1 v else acc.2.1 := by
  unfold stepTier isMinorCand
  cases hp : parseSemverTuple v with
  | none => simp
  | some t =>
    by_cases hd : containsDash v
    · simp [hd]
    · by_cases hg : t.1 = cur.1 ∧ t.2.1 > cur.2.1
      · simp [hd, hg]
      · simp only [Bool.not_eq_true] at hd
        simp [hd, hg]

theorem stepTier_thd (cur : SemverTuple) (acc : TierAcc) (v : String) :
    (stepTier cur acc v).2.2 =
      if isMajorCand cur v then updMax acc.2.2 v else acc.2.2 := by
  unfold stepTier isMajorCand
  cases hp : parseSemverTuple v with
  | none => simp
  | some t =>
    by_cases hd : containsDash v
    · simp [hd]
    · by_cases hg : t.1 > cur.1
      · simp [hd, hg]
      · simp only [Bool.not_eq_true] at hd
        simp [hd, hg]

theorem foldl_guard_filter {α : Type} (p : String → Bool)
    (f : α → String → α) (l : List String) :
    ∀ b : α, (l.filter p).foldl f b =
      l.foldl (fun x y => if p y then f x y else x) b := by
  induction l with
  | nil => intro b; rfl
  | cons v rest ih =>
    intro b
    by_cases hp : p v
    · rw [List.filter_cons_of_pos hp, List.foldl_cons, List.foldl_cons,
        if_pos hp, ih]
    · rw [List.filter_cons_of_neg hp, List.foldl_cons,
        if_neg hp, ih]

theorem foldl_stepTier_fst (cur : SemverTuple) (l : List String) :
    ∀ acc : TierAcc, (l.foldl (stepTier cur) acc).1 =
      l.foldl (fun a v => if isPatchCand cur v then updMax a v else a)
        acc.1 := by
  induction l with
  | nil => intro acc; rfl
  | cons v rest ih =>
    intro acc
    rw [List.foldl_cons, List.foldl_cons, ih, stepTier_fst]

theorem foldl_stepTier_snd (cur : SemverTuple) (l : List String) :
    ∀ acc : TierAcc, (l.foldl (stepTier cur) acc).2.1 =
      l.foldl (fun a v => if isMinorCand cur v then updMax a v else a)
        acc.2.1 := by
  induction l with
  | nil => intro acc; rfl
  | cons v rest ih =>
    intro acc
    rw [List.foldl_cons, List.foldl_cons, ih, stepTier_snd]

theorem foldl_stepTier_thd (cur : SemverTuple) (l : List String) :
    ∀ acc : TierAcc, (l.foldl (stepTier cur) acc).2.2 =
      l.foldl (fun a v => if isMajorCand cur v then updMax a v else a)
        acc.2.2 := by
  induction l with
  | nil => intro acc; rfl
  | cons v rest ih =>
    intro acc
    rw [List.foldl_cons, List.foldl_cons, ih, stepTier_thd]

theorem isPatchCand_isSome {cur : SemverTuple} {v : String}
    (h : isPatchCand cur v = true) : (parseSemverTuple v).isSome = true := by
  unfold isPatchCand at h
  cases hp : parseSemverTuple v with
  | none => rw [hp] at h; simp at h
  | some t => rfl

theorem isMinorCand_isSome {cur : SemverTuple} {v : String}
    (h : isMinorCand cur v = true) : (parseSemverTuple v).isSome = true := by
  unfold isMinorCand at h
  cases hp : parseSemverTuple v with
  | none => rw [hp] at h; simp at h
  | some t => rfl

theorem isMajorCand_isSome {cur : SemverTuple} {v : String}
    (h : isMajorCand cur v = true) : (parseSemverTuple v).isSome = true := by
  unfold isMajorCand at h
  cases hp : parseSemverTuple v with
  | none => rw [hp] at h; simp at h
  | some t => rfl

/-- The patch-tier running maximum of the candidate loop is exactly the
first-wins maximum of the patch-tier candidates, in order. -/
theorem tier_fold_patch (cur : SemverTuple) (l : List String) :
    (l.foldl (stepTier cur) (none, none, none)).1 =
      pickFirstMax (l.filter (isPatchCand cur)) := by
  rw [foldl_stepTier_fst, ← foldl_guard_filter]
  exact (foldl_updMax_none _ (fun x hx =>
    isPatchCand_isSome (List.of_mem_filter hx))).symm
    |>.symm

/-- The minor-tier running maximum of the candidate loop is exactly the
first-wins maximum of the minor-tier candidates, in order. -/
theorem tier_fold_minor (cur : SemverTuple) (l : List String) :
    (l.foldl (stepTier cur) (none, none, none)).2.1 =
      pickFirstMax (l.filter (isMinorCand cur)) := by
  rw [foldl_stepTier_snd, ← foldl_guard_filter]
  exact foldl_updMax_none _ (fun x hx =>
    isMinorCand_isSome (List.of_mem_filter hx))

/-- The major-tier running maximum of the candidate loop is exactly the
first-wins maximum of the major-tier candidates, in order. -/
theorem tier_fold_major (cur : SemverTuple) (l : List String) :
    (l.foldl (stepTier cur) (none, none, none)).2.2 =
      pickFirstMax (l.filter (isMajorCand cur)) := by
  rw [foldl_stepTier_thd, ← foldl_guard_filter]
  exact foldl_updMax_none _ (fun x hx =>
    isMajorCand_isSome (List.of_mem_filter hx))

theorem getUpgradeOptions_none_eq (current latestTag : String)
    (l : List String) (h : parseSemverTuple current = none) :
    getUpgradeOptions current l latestTag = { latest := latestTag } := by
  unfold getUpgradeOptions
  rw [h]

theorem keepAux_eq_some {latestTag current : String} {m : Option String}
    {v : String} (h : keepAux latestTag current m = some v) :
    m = some v ∧ v ≠ latestTag ∧ latestTag ≠ current := by
  unfold keepAux at h
  split at h
  · split at h
    next w =>
      split at h
      next hw =>
        obtain rfl := Option.some_inj.mp h
        exact ⟨rfl, hw, by assumption⟩
      next hw => exact absurd h (by simp)
    next => exact absurd h (by simp)
  · exact absurd h (by simp)

/-- Normal form of `getUpgradeOptions` on a parseable current version:
each tier field is the first-wins maximum of that tier's candidates,
filtered through the population conditions. -/
theorem getUpgradeOptions_some_eq (current latestTag : String)
    (l : List String) (cur : SemverTuple)
    (h : parseSemverTuple current = some cur) :
    getUpgradeOptions current l latestTag =
      { latest := latestTag
        patch := keepAux latestTag current
          (pickFirstMax (l.filter (isPatchCand cur)))
        minor := keepAux latestTag current
          (pickFirstMax (l.filter (isMinorCand cur)))
        major := keepAux latestTag current
          (pickFirstMax (l.filter (isMajorCand cur)))
        prerelease :=
          if containsDash latestTag ∧ ¬ containsDash current
          then some latestTag else none } := by
  unfold getUpgradeOptions
  rw [h]
  rw [← tier_fold_patch, ← tier_fold_minor, ← tier_fold_major]
  rfl

/-- Claim C1 amended: `latest` always equals the supplied tag; each of
the `patch`, `minor`, `major` fields, when populated, names a candidate
strictly greater within its tier than the current version (same
major/minor with larger patch, same major with larger minor, larger
major, respectively, and never a prerelease) and distinct from the
latest tag; `prerelease`, when populated, equals the latest tag (it is
not distinct from `latest`). -/
theorem getUpgradeOptions_field_invariant (current latestTag : String)
    (l : List String) :
    (getUpgradeOptions current l latestTag).latest = latestTag ∧
    (∀ v, (getUpgradeOptions current l latestTag).patch = some v →
      ∃ cur, parseSemverTuple current = some cur ∧
        isPatchCand cur v = true ∧ v ≠ latestTag) ∧
    (∀ v, (getUpgradeOptions current l latestTag).minor = some v →
      ∃ cur, parseSemverTuple current = some cur ∧
        isMinorCand cur v = true ∧ v ≠ latestTag) ∧
    (∀ v, (getUpgradeOptions current l latestTag).major = some v →
      ∃ cur, parseSemverTuple current = some cur ∧
        isMajorCand cur v = true ∧ v ≠ latestTag) ∧
    (∀ v, (getUpgradeOptions current l latestTag).prerelease = some v →
      v = latestTag) := by
  cases hcur : parseSemverTuple current with
  | none =>
    rw [getUpgradeOptions_none_eq current latestTag l hcur]
    refine ⟨rfl, ?_, ?_, ?_, ?_⟩ <;> intro v hv <;> exact absurd hv (by simp)
  | some cur =>
    rw [getUpgradeOptions_some_eq current latestTag l cur hcur]
    refine ⟨rfl, ?_, ?_, ?_, ?_⟩
    · intro v hv
      obtain ⟨hm, hvl, -⟩ := keepAux_eq_some hv
      exact ⟨cur, rfl, List.of_mem_filter (pickFirstMax_mem hm), hvl⟩
    · intro v hv
      obtain ⟨hm, hvl, -⟩ := keepAux_eq_some hv
      exact ⟨cur, rfl, List.of_mem_filter (pickFirstMax_mem hm), hvl⟩
    · intro v hv
      obtain ⟨hm, hvl, -⟩ := keepAux_eq_some hv
      exact ⟨cur, rfl, List.of_mem_filter (pickFirstMax_mem hm), hvl⟩
    · intro v hv
      by_cases hc : containsDash latestTag ∧ ¬ containsDash current
      · rw [if_pos hc] at hv
        exact (Option.some_inj.mp hv).symm
      · rw [if_neg hc] at hv
        exact absurd hv (by simp)

/-- Witness for the amended C1: the patch tier of the C2 example is
populated with `1.2.4`, which the theorem certifies as a patch-tier
candidate distinct from the latest tag. -/
theorem getUpgradeOptions_field_invariant_witness :
    ∃ cur, parseSemverTuple "1.2.3" = some cur ∧
      isPatchCand cur "1.2.4" = true ∧ "1.2.4" ≠ "2.0.0" :=
  ((getUpgradeOptions_field_invariant "1.2.3" "2.0.0"
      ["1.2.4", "1.3.0", "2.0.0"]).2.1) "1.2.4" (by decide)

/-- Claim C3 amended: the tier computation excludes every candidate
containing `-` (and every unparseable candidate), and each tier's
running maximum is the `pickFirstMax` of the remaining candidates of
that tier: the maximum under the tuple comparator, with ties between
comparator-equal candidates broken first-wins in iteration order (a
later candidate replaces the running maximum only when strictly
greater).  The populated result fields come from these maxima. -/
theorem getUpgradeOptions_tier_maxima (current latestTag : String)
    (l : List String) (cur : SemverTuple)
    (h : parseSemverTuple current = some cur) :
    (l.foldl (stepTier cur) (none, none, none)).1 =
        pickFirstMax (l.filter (isPatchCand cur)) ∧
    (l.foldl (stepTier cur) (none, none, none)).2.1 =
        pickFirstMax (l.filter (isMinorCand cur)) ∧
    (l.foldl (stepTier cur) (none, none, none)).2.2 =
        pickFirstMax (l.filter (isMajorCand cur)) ∧
    (∀ v, (getUpgradeOptions current l latestTag).patch = some v →
      pickFirstMax (l.filter (isPatchCand cur)) = some v) ∧
    (∀ v, (getUpgradeOptions current l latestTag).minor = some v →
      pickFirstMax (l.filter (isMinorCand cur)) = some v) ∧
    (∀ v, (getUpgradeOptions current l latestTag).major = some v →
      pickFirstMax (l.filter (isMajorCand cur)) = some v) := by
  refine ⟨tier_fold_patch cur l, tier_fold_minor cur l,
    tier_fold_major cur l, ?_, ?_, ?_⟩ <;>
    intro v hv <;>
    rw [getUpgradeOptions_some_eq current latestTag l cur h] at hv <;>
    exact (keepAux_eq_some hv).1

/-- Witness for the amended C3: with comparator-equal candidates
`1.2.4+build` then `1.2.4`, the populated patch field is the earlier
one, certified to be the first-wins maximum of the tier. -/
theorem getUpgradeOptions_tier_maxima_witness :
    pickFirstMax
        (["1.2.4+build", "1.2.4"].filter (isPatchCand (1, 2, 3))) =
      some "1.2.4+build" :=
  ((getUpgradeOptions_tier_maxima "1.2.3" "9.9.9"
      ["1.2.4+build", "1.2.4"] (1, 2, 3) (by decide)).2.2.2.1)
    "1.2.4+build" (by decide)

/-- Claim C4 amended: on version strings with valid tuples, `compare`
returns an integer (the difference at the first differing component,
not clamped to the set containing `-1`, `0` and `1`) whose sign agrees
with lexicographic tuple comparison: negative exactly when the first
tuple is smaller, zero exactly when they are equal, positive exactly
when it is larger. -/
theorem compare_sign_agrees (a b : String) (ta tb : SemverTuple)
    (ha : parseSemverTuple a = some ta)
    (hb : parseSemverTuple b = some tb) :
    ∃ d : Int, compare a b = some d ∧
      (d < 0 ↔ lexGtT tb ta) ∧ (d = 0 ↔ ta = tb) ∧
      (0 < d ↔ lexGtT ta tb) := by
  have hc : compare a b =
      some (if ta.1 ≠ tb.1 then (ta.1 : Int) - tb.1
            else if ta.2.1 ≠ tb.2.1 then (ta.2.1 : Int) - tb.2.1
            else (ta.2.2 : Int) - tb.2.2) := by
    unfold compare
    rw [ha, hb]
  refine ⟨_, hc, ?_, ?_, ?_⟩ <;>
    · simp only [lexGtT, Prod.ext_iff]
      split_ifs <;> omega

/-- Witness for the amended C4: `compare "1.2.3" "1.2.4"` is negative
and its sign matches the lexicographic comparison. -/
theorem compare_sign_agrees_witness :
    ∃ d : Int, compare "1.2.3" "1.2.4" = some d ∧
      (d < 0 ↔ lexGtT (1, 2, 4) (1, 2, 3)) ∧
      (d = 0 ↔ ((1, 2, 3) : SemverTuple) = (1, 2, 4)) ∧
      (0 < d ↔ lexGtT (1, 2, 3) (1, 2, 4)) :=
  compare_sign_agrees "1.2.3" "1.2.4" (1, 2, 3) (1, 2, 4)
    (by decide) (by decide)

/-- Claim C2: on current `1.2.3`, candidates `1.2.4`, `1.3.0`, `2.0.0`
and latest tag `2.0.0`, `getUpgradeOptions` returns exactly
`latest = 2.0.0`, `patch = 1.2.4`, `minor = 1.3.0`, with the major tier
omitted because its best candidate equals the latest tag, and no
prerelease field. -/
theorem getUpgradeOptions_example_1_2_3 :
    getUpgradeOptions "1.2.3" ["1.2.4", "1.3.0", "2.0.0"] "2.0.0" =
      { latest := "2.0.0", patch := some "1.2.4", minor := some "1.3.0" } := by
  decide

/-- Claim C7: when the current version has no `(major, minor, patch)`
tuple, `getUpgradeOptions` returns exactly the record whose `latest`
field is the supplied tag and whose optional fields are all absent, for
any candidate list and any latest tag (prerelease or not). -/
theorem getUpgradeOptions_unparseable (current latestTag : String)
    (l : List String) (h : parseSemverTuple current = none) :
    getUpgradeOptions current l latestTag = { latest := latestTag } :=
  getUpgradeOptions_none_eq current latestTag l h

/-- Witness for C7: `"beta"` has no tuple, and the result is bare
`latest` even though the latest tag contains a prerelease marker and the
candidate list is nonempty. -/
theorem getUpgradeOptions_unparseable_witness :
    parseSemverTuple "beta" = none ∧
      getUpgradeOptions "beta" ["1.0.0", "2.0.0"] "2.0.0-rc.1" =
        { latest := "2.0.0-rc.1" } :=
  ⟨by decide,
    getUpgradeOptions_unparseable "beta" "2.0.0-rc.1" ["1.0.0", "2.0.0"]
      (by decide)⟩

/-- Claim C6: for a parseable current version, the `prerelease` field is
set (to the latest tag) iff the latest tag contains `-` and the current
version does not; when set it equals the latest tag exactly. -/
theorem getUpgradeOptions_prerelease_iff (current latestTag : String)
    (l : List String) (h : parseSemverTuple current ≠ none) :
    ((getUpgradeOptions current l latestTag).prerelease = some latestTag ↔
      containsDash latestTag = true ∧ containsDash current = false) ∧
    ∀ v, (getUpgradeOptions current l latestTag).prerelease = some v →
      v = latestTag := by
  obtain ⟨t, ht⟩ := Option.ne_none_iff_exists'.mp h
  unfold getUpgradeOptions
  rw [ht]
  simp only []
  constructor
  · by_cases hc : containsDash latestTag ∧ ¬ containsDash current
    · simp [hc, hc.1, hc.2]
    · simp only [if_neg hc]
      constructor
      · intro hfalse
        exact absurd hfalse (by simp)
      · intro ⟨h1, h2⟩
        exact absurd ⟨h1, by simp [h2]⟩ hc
  · intro v hv
    by_cases hc : containsDash latestTag ∧ ¬ containsDash current
    · rw [if_pos hc] at hv
      exact (Option.some_inj.mp hv).symm
    · rw [if_neg hc] at hv
      exact absurd hv (by simp)

/-- Witness for C6: on current `1.0.0` and latest `2.0.0-beta.1` the
iff's right side holds, so `prerelease` is populated with the tag. -/
theorem getUpgradeOptions_prerelease_iff_witness :
    (getUpgradeOptions "1.0.0" [] "2.0.0-beta.1").prerelease =
      some "2.0.0-beta.1" :=
  ((getUpgradeOptions_prerelease_iff "1.0.0" "2.0.0-beta.1" []
      (by decide)).1).mpr (by decide)

/-- Counterexample to C1 as stated: on current `1.0.0`, no candidates,
latest tag `2.0.0-beta.1`, the `prerelease` field is populated and is
equal to the `latest` field, contradicting "every populated optional
field ... is distinct from the latest field". -/
theorem upgradeOptions_prerelease_equals_latest :
    (getUpgradeOptions "1.0.0" [] "2.0.0-beta.1").prerelease =
        some "2.0.0-beta.1" ∧
      (getUpgradeOptions "1.0.0" [] "2.0.0-beta.1").latest =
        "2.0.0-beta.1" := by
  decide

/-- Counterexample to C3 as stated: `1.2.4+build` and `1.2.4` are
comparator-equal candidates for the patch tier; the code keeps the
first one in iteration order, not the last, so the tie-break is
first-wins rather than the claimed last-wins. -/
theorem upgradeOptions_tie_first_wins :
    compare "1.2.4+build" "1.2.4" = some 0 ∧
      (getUpgradeOptions "1.2.3" ["1.2.4+build", "1.2.4"] "9.9.9").patch =
        some "1.2.4+build" := by
  decide

/-- Counterexample to C4 as stated: `compare` returns the raw difference
at the first differing component, not a value clamped to `-1`, `0`, `1`:
comparing `3.0.0` with `1.0.0` yields `2`. -/
theorem compare_value_not_clamped :
    compare "3.0.0" "1.0.0" = some 2 ∧
      ¬((2 : Int) = -1 ∨ (2 : Int) = 0 ∨ (2 : Int) = 1) := by
  decide

theorem takeWhile_append_of_all {α : Type} {p : α → Bool} {l1 : List α}
    (l2 : List α) (h : ∀ x ∈ l1, p x = true) :
    (l1 ++ l2).takeWhile p = l1 ++ l2.takeWhile p := by
  induction l1 with
  | nil => rfl
  | cons a l ih =>
    rw [List.cons_append,
      List.takeWhile_cons_of_pos (h a (List.mem_cons_self _ _)),
      ih (fun x hx => h x (List.mem_cons_of_mem _ hx)), List.cons_append]

theorem dropWhile_append_of_all {α : Type} {p : α → Bool} {l1 : List α}
    (l2 : List α) (h : ∀ x ∈ l1, p x = true) :
    (l1 ++ l2).dropWhile p = l2.dropWhile p := by
  induction l1 with
  | nil => rfl
  | cons a l ih =>
    rw [List.cons_append,
      List.dropWhile_cons_of_pos (h a (List.mem_cons_self _ _)),
      ih (fun x hx => h x (List.mem_cons_of_mem _ hx))]

theorem takeWhile_eq_nil_of_head {α : Type} {p : α → Bool} {l : List α}
    (h : ∀ c, l.head? = some c → p c = false) : l.takeWhile p = [] := by
  cases l with
  | nil => rfl
  | cons a l => exact List.takeWhile_cons_of_neg (by simp [h a rfl])

/-- Computation of the embedded regex on an explicit decomposition into
digit runs, dots and a non-digit-headed remainder. -/
theorem parseSemverCore_of_decomp {d1 d2 d3 rest : List Char}
    (h1 : DigitRun d1) (h2 : DigitRun d2) (h3 : DigitRun d3)
    (hr : ∀ c, rest.head? = some c → c.isDigit = false) :
    parseSemverCore (d1 ++ '.' :: (d2 ++ '.' :: (d3 ++ rest))) =
      some (natOfDigits d1, natOfDigits d2, natOfDigits d3) := by
  have e1 : (d1 ++ '.' :: (d2 ++ '.' :: (d3 ++ rest))).takeWhile
      Char.isDigit = d1 := by
    rw [takeWhile_append_of_all _ h1.2,
      List.takeWhile_cons_of_neg (by decide), List.append_nil]
  have e2 : (d1 ++ '.' :: (d2 ++ '.' :: (d3 ++ rest))).dropWhile
      Char.isDigit = '.' :: (d2 ++ '.' :: (d3 ++ rest)) := by
    rw [dropWhile_append_of_all _ h1.2,
      List.dropWhile_cons_of_neg (by decide)]
  have e3 : (d2 ++ '.' :: (d3 ++ rest)).takeWhile Char.isDigit = d2 := by
    rw [takeWhile_append_of_all _ h2.2,
      List.takeWhile_cons_of_neg (by decide), List.append_nil]
  have e4 : (d2 ++ '.' :: (d3 ++ rest)).dropWhile Char.isDigit =
      '.' :: (d3 ++ rest) := by
    rw [dropWhile_append_of_all _ h2.2,
      List.dropWhile_cons_of_neg (by decide)]
  have e5 : (d3 ++ rest).takeWhile Char.isDigit = d3 := by
    rw [takeWhile_append_of_all _ h3.2, takeWhile_eq_nil_of_head hr,
      List.append_nil]
  unfold parseSemverCore
  simp only [e1, e2, e3, e4, e5, List.head?_cons, List.tail_cons]
  rw [if_neg h1.1, if_neg (by simp), if_neg h2.1, if_neg (by simp),
    if_neg h3.1]

/-- Extraction of the decomposition from a successful run of the
embedded regex. -/
theorem parseSemverCore_decomp {l : List Char} {t : SemverTuple}
    (hp : parseSemverCore l = some t) :
    ∃ d1 d2 d3 rest, DigitRun d1 ∧ DigitRun d2 ∧ DigitRun d3 ∧
      (∀ c, rest.head? = some c → c.isDigit = false) ∧
      l = d1 ++ '.' :: (d2 ++ '.' :: (d3 ++ rest)) ∧
      t = (natOfDigits d1, natOfDigits d2, natOfDigits d3) := by
  unfold parseSemverCore at hp
  simp only at hp
  by_cases c1 : l.takeWhile Char.isDigit = []
  · rw [if_pos c1] at hp
    exact absurd hp (by simp)
  rw [if_neg c1] at hp
  by_cases c2 : (l.dropWhile Char.isDigit).head? ≠ some '.'
  · rw [if_pos c2] at hp
    exact absurd hp (by simp)
  rw [if_neg c2] at hp
  rw [not_not] at c2
  by_cases c3 :
      ((l.dropWhile Char.isDigit).tail).takeWhile Char.isDigit = []
  · rw [if_pos c3] at hp
    exact absurd hp (by simp)
  rw [if_neg c3] at hp
  by_cases c4 :
      (((l.dropWhile Char.isDigit).tail).dropWhile Char.isDigit).head? ≠
        some '.'
  · rw [if_pos c4] at hp
    exact absurd hp (by simp)
  rw [if_neg c4] at hp
  rw [not_not] at c4
  by_cases c5 :
      ((((l.dropWhile Char.isDigit).tail).dropWhile
        Char.isDigit).tail).takeWhile Char.isDigit = []
  · rw [if_pos c5] at hp
    exact absurd hp (by simp)
  rw [if_neg c5] at hp
  refine ⟨l.takeWhile Char.isDigit,
    ((l.dropWhile Char.isDigit).tail).takeWhile Char.isDigit,
    ((((l.dropWhile Char.isDigit).tail).dropWhile
      Char.isDigit).tail).takeWhile Char.isDigit,
    ((((l.dropWhile Char.isDigit).tail).dropWhile
      Char.isDigit).tail).dropWhile Char.isDigit,
    ⟨c1, fun x hx => List.mem_takeWhile_imp hx⟩,
    ⟨c3, fun x hx => List.mem_takeWhile_imp hx⟩,
    ⟨c5, fun x hx => List.mem_takeWhile_imp hx⟩,
    ?_, ?_, ?_⟩
  · intro c hc
    have := List.head?_dropWhile_not Char.isDigit
      (((l.dropWhile Char.isDigit).tail).dropWhile Char.isDigit).tail
    rw [hc] at this
    exact this
  · have g1 : l.dropWhile Char.isDigit =
        '.' :: (l.dropWhile Char.isDigit).tail := by
      cases hd : l.dropWhile Char.isDigit with
      | nil => rw [hd] at c2; exact absurd c2 (by simp)
      | cons a r =>
        rw [hd] at c2
        simp only [List.head?_cons, Option.some_inj] at c2
        rw [c2]
        rfl
    have g2 : ((l.dropWhile Char.isDigit).tail).dropWhile Char.isDigit =
        '.' :: (((l.dropWhile Char.isDigit).tail).dropWhile
          Char.isDigit).tail := by
      cases hd : ((l.dropWhile Char.isDigit).tail).dropWhile Char.isDigit with
      | nil => rw [hd] at c4; exact absurd c4 (by simp)
      | cons a r =>
        rw [hd] at c4
        simp only [List.head?_cons, Option.some_inj] at c4
        rw [c4]
        rfl
    conv_lhs => rw [← List.takeWhile_append_dropWhile Char.isDigit l]
    rw [g1]
    congr 2
    conv_lhs => rw [← List.takeWhile_append_dropWhile Char.isDigit
      (l.dropWhile Char.isDigit).tail]
    rw [g2]
    congr 2
    exact (List.takeWhile_append_dropWhile Char.isDigit _).symm
  · exact (Option.some_inj.mp hp).symm

/-- Claim C5: `parseSemverTuple` succeeds exactly on strings that begin
with three dot-separated decimal digit runs, returning the runs' values
and ignoring whatever follows the third run (prerelease or build suffix
included); on every other string it returns null.  The decomposition
takes each run maximal (`rest` cannot start with a digit), matching the
greedy `\d+` captures of `^(\d+)\.(\d+)\.(\d+)`. -/
theorem parseSemverTuple_characterization (s : String) :
    (∀ t, parseSemverTuple s = some t ↔
      ∃ d1 d2 d3 rest, DigitRun d1 ∧ DigitRun d2 ∧ DigitRun d3 ∧
        (∀ c, rest.head? = some c → c.isDigit = false) ∧
        s.data = d1 ++ '.' :: (d2 ++ '.' :: (d3 ++ rest)) ∧
        t = (natOfDigits d1, natOfDigits d2, natOfDigits d3)) ∧
    (parseSemverTuple s = none ↔
      ¬ ∃ d1 d2 d3 rest, DigitRun d1 ∧ DigitRun d2 ∧ DigitRun d3 ∧
        (∀ c, rest.head? = some c → c.isDigit = false) ∧
        s.data = d1 ++ '.' :: (d2 ++ '.' :: (d3 ++ rest))) := by
  constructor
  · intro t
    constructor
    · intro hp
      exact parseSemverCore_decomp hp
    · rintro ⟨d1, d2, d3, rest, h1, h2, h3, hr, hs, ht⟩
      show parseSemverCore s.data = some t
      rw [hs, ht]
      exact parseSemverCore_of_decomp h1 h2 h3 hr
  · constructor
    · intro hp hex
      obtain ⟨d1, d2, d3, rest, h1, h2, h3, hr, hs⟩ := hex
      have : parseSemverTuple s =
          some (natOfDigits d1, natOfDigits d2, natOfDigits d3) := by
        show parseSemverCore s.data = _
        rw [hs]
        exact parseSemverCore_of_decomp h1 h2 h3 hr
      rw [hp] at this
      exact absurd this (by simp)
    · intro hex
      cases hp : parseSemverTuple s with
      | none => rfl
      | some t =>
        obtain ⟨d1, d2, d3, rest, h1, h2, h3, hr, hs, -⟩ :=
          parseSemverCore_decomp hp
        exact absurd ⟨d1, d2, d3, rest, h1, h2, h3, hr, hs⟩ hex

/-- Claim C9: for every string on which the specifier parser succeeds,
formatting the parsed specifier reproduces the input exactly (the
no-substitution round trip), hence parsing the formatted string yields
the same specifier as parsing the input directly. -/
theorem parseVersion_roundtrip (s : String) (sp : VersionSpecifier)
    (h : parseVersion s = some sp) :
    formatVersion sp = s ∧
      parseVersion (formatVersion sp) = parseVersion s := by
  unfold parseVersion at h
  cases hi : firstSemverIdx s.data with
  | none =>
    rw [hi] at h
    exact absurd h (by simp)
  | some i =>
    rw [hi] at h
    simp only [Option.map_some'] at h
    obtain rfl := (Option.some_inj.mp h).symm
    have hf : formatVersion
        { protocol := ⟨s.data.take i⟩, semver := ⟨s.data.drop i⟩ } = s := by
      show String.mk (s.data.take i ++ s.data.drop i) = s
      rw [List.take_append_drop]
    exact ⟨hf, by rw [hf]⟩

/-- Witness for C9: `^1.2.3` parses to prefix `^` with core `1.2.3`,
formats back to `^1.2.3`, and re-parsing agrees. -/
theorem parseVersion_roundtrip_witness :
    formatVersion ⟨"^", "1.2.3"⟩ = "^1.2.3" ∧
      parseVersion (formatVersion ⟨"^", "1.2.3"⟩) =
        parseVersion "^1.2.3" :=
  parseVersion_roundtrip "^1.2.3" ⟨"^", "1.2.3"⟩ (by decide)

theorem setTag_none_iff (m : List (String × ResolvedPackumentVersion))
    (tag version : String) :
    setTag m tag version = none ↔ version ∉ m.map Prod.fst := by
  unfold setTag
  split_ifs with h
  · simp only [List.any_eq_true, decide_eq_true_eq] at h
    obtain ⟨p, hp, hpv⟩ := h
    constructor
    · intro hfalse
      exact absurd hfalse (by simp)
    · intro hno
      exact absurd (List.mem_map.mpr ⟨p, hp, hpv⟩) hno
  · simp only [List.any_eq_true, decide_eq_true_eq, not_exists] at h
    constructor
    · intro _ hmem
      obtain ⟨p, hp, hpv⟩ := List.mem_map.mp hmem
      exact h p ⟨hp, hpv⟩
    · intro _
      rfl

theorem setTag_some_keys {m m' : List (String × ResolvedPackumentVersion)}
    {tag version : String} (h : setTag m tag version = some m') :
    m'.map Prod.fst = m.map Prod.fst := by
  unfold setTag at h
  split_ifs at h
  · obtain rfl := (Option.some_inj.mp h).symm
    rw [List.map_map]
    refine List.map_congr_left ?_
    intro p _
    show (if p.1 = version then _ else p).1 = p.1
    split_ifs <;> rfl

theorem foldl_setTag_bind_none (tags : List (String × String)) :
    tags.foldl (fun acc p => acc.bind (fun m => setTag m p.1 p.2))
      none = none := by
  induction tags with
  | nil => rfl
  | cons tg tags ih => exact ih

theorem foldl_setTag_none_iff (tags : List (String × String)) :
    ∀ m : List (String × ResolvedPackumentVersion),
      tags.foldl (fun acc p => acc.bind (fun mm => setTag mm p.1 p.2))
          (some m) = none ↔
        ∃ p ∈ tags, p.2 ∉ m.map Prod.fst := by
  induction tags with
  | nil =>
    intro m
    simp
  | cons tg tags ih =>
    intro m
    rw [List.foldl_cons]
    show tags.foldl _ (setTag m tg.1 tg.2) = none ↔ _
    cases hst : setTag m tg.1 tg.2 with
    | none =>
      have hmem : tg.2 ∉ m.map Prod.fst := (setTag_none_iff m _ _).mp hst
      exact iff_of_true (foldl_setTag_bind_none tags)
        ⟨tg, List.mem_cons_self _ _, hmem⟩
    | some m' =>
      rw [ih m', setTag_some_keys hst]
      have htg : tg.2 ∈ m.map Prod.fst := by
        by_contra hc
        rw [(setTag_none_iff m tg.1 tg.2).mpr hc] at hst
        exact absurd hst (by simp)
      constructor
      · rintro ⟨p, hp, hnp⟩
        exact ⟨p, List.mem_cons_of_mem _ hp, hnp⟩
      · rintro ⟨p, hp, hnp⟩
        rcases List.mem_cons.mp hp with rfl | hp'
        · exact absurd htg hnp
        · exact ⟨p, hp', hnp⟩

/-- Claim C10: the normalization of `getPackageInfo` throws (modelled
`none`) exactly when some dist-tag's target version is absent from the
timestamp-filtered versions map, and returns a `ResolvedPackument`
exactly when every dist-tag's target survives the filter. -/
theorem getPackageInfo_normalization_safety (pkg : RawPackument) :
    (normalizePackument pkg = none ↔
      ∃ p ∈ pkg.distTags,
        p.2 ∉ (filteredVersions pkg).map Prod.fst) ∧
    ((∃ r, normalizePackument pkg = some r) ↔
      ∀ p ∈ pkg.distTags,
        p.2 ∈ (filteredVersions pkg).map Prod.fst) := by
  have hbase : ((filteredVersions pkg).map (fun p =>
      (p.1, { version := p.1, tag := none,
              hasProvenance := p.2.hasAttestations,
              deprecated := p.2.deprecated :
                ResolvedPackumentVersion }))).map Prod.fst =
      (filteredVersions pkg).map Prod.fst := by
    rw [List.map_map]
    rfl
  have h1 : normalizePackument pkg = none ↔
      ∃ p ∈ pkg.distTags,
        p.2 ∉ (filteredVersions pkg).map Prod.fst := by
    show (Option.map _ _) = none ↔ _
    rw [Option.map_eq_none', foldl_setTag_none_iff, hbase]
  refine ⟨h1, ?_, ?_⟩
  · rintro ⟨r, hr⟩ p hp
    by_contra hc
    have hn : normalizePackument pkg = none := h1.mpr ⟨p, hp, hc⟩
    rw [hr] at hn
    exact absurd hn (by simp)
  · intro hall
    cases hn : normalizePackument pkg with
    | some r => exact ⟨r, rfl⟩
    | none =>
      obtain ⟨p, hp, hnp⟩ := h1.mp hn
      exact absurd (hall p hp) hnp

theorem resolveEntry_fst {α : Type} (name : String) (v : α)
    (p : String × CacheEntry α) :
    (resolveEntry name v p).1 = p.1 := by
  unfold resolveEntry
  by_cases h : p.1 = name
  · rw [if_pos h]
    cases hp : p.2 <;> rfl
  · rw [if_neg h]

theorem find?_resolve_preserved {α : Type}
    {entries : List (String × CacheEntry α)} {name : String} {v : α}
    (n : String) (w : α)
    (h : (entries.find? (fun p => decide (p.1 = name))).map Prod.snd =
      some (CacheEntry.resolved v)) :
    ((entries.map (resolveEntry n w)).find?
        (fun p => decide (p.1 = name))).map Prod.snd =
      some (CacheEntry.resolved v) := by
  induction entries with
  | nil => simp at h
  | cons a rest ih =>
    by_cases ha : a.1 = name
    · rw [List.find?_cons_of_pos _ (by simpa using ha)] at h
      simp only [Option.map_some'] at h
      rw [List.map_cons,
        List.find?_cons_of_pos _ (by simp [resolveEntry_fst, ha])]
      simp only [Option.map_some']
      have ha2 : a.2 = CacheEntry.resolved v := Option.some_inj.mp h
      unfold resolveEntry
      by_cases han : a.1 = n
      · rw [if_pos han, ha2]
      · rw [if_neg han]
        exact h
    · rw [List.find?_cons_of_neg _ (by simpa using ha)] at h
      rw [List.map_cons,
        List.find?_cons_of_neg _ (by simp [resolveEntry_fst, ha])]
      exact ih h

theorem lookupEntry_get_preserved {α : Type} {st : CacheState α}
    {name : String} {v : α} (n : String)
    (h : lookupEntry st name = some (CacheEntry.resolved v)) :
    lookupEntry (cacheGet st n).2 name =
      some (CacheEntry.resolved v) := by
  unfold cacheGet
  cases hn : lookupEntry st n with
  | some e => cases e <;> exact h
  | none =>
    have hne : n ≠ name := by
      intro he
      rw [he, h] at hn
      exact absurd hn (by simp)
    show Option.map Prod.snd
        (List.find? (fun p => decide (p.1 = name))
          ((n, CacheEntry.pending st.nextFetchId) :: st.entries)) =
      some (CacheEntry.resolved v)
    rw [List.find?_cons_of_neg _ (by simpa using hne)]
    exact h

theorem lookup_resolved_applyOps {α : Type} (ops : List (CacheOp α)) :
    ∀ (st : CacheState α) (name : String) (v : α),
      lookupEntry st name = some (CacheEntry.resolved v) →
      lookupEntry (applyOps st ops) name =
        some (CacheEntry.resolved v) := by
  induction ops with
  | nil => intro st name v h; exact h
  | cons op ops ih =>
    intro st name v h
    show lookupEntry (applyOps (applyOp st op) ops) name = _
    apply ih
    cases op with
    | get n => exact lookupEntry_get_preserved n h
    | resolve n w =>
      show (((st.entries.map (resolveEntry n w)).find?
        (fun p => decide (p.1 = name))).map Prod.snd) = _
      exact find?_resolve_preserved n w h

/-- Claim C8 (spec-modelled cache): a `get` miss initiates exactly one
fetch (the fetch log grows by that single entry) and stores its pending
handle; while that fetch is in flight every further `get` for the name
returns the very same handle without touching the state; a `get` on a
resolved entry returns the cached value synchronously without touching
the state; and once resolved, the entry survives any sequence of
further cache events, so the value is returned for the lifetime of the
process. -/
theorem cache_coalescing (α : Type) (st : CacheState α) (name : String) :
    (lookupEntry st name = none →
      cacheGet st name =
        (GetResult.pendingHandle st.nextFetchId,
         { entries :=
             (name, CacheEntry.pending st.nextFetchId) :: st.entries,
           nextFetchId := st.nextFetchId + 1,
           fetchLog := (st.nextFetchId, name) :: st.fetchLog }) ∧
      lookupEntry (cacheGet st name).2 name =
        some (CacheEntry.pending st.nextFetchId)) ∧
    (∀ i, lookupEntry st name = some (CacheEntry.pending i) →
      cacheGet st name = (GetResult.pendingHandle i, st)) ∧
    (∀ v, lookupEntry st name = some (CacheEntry.resolved v) →
      cacheGet st name = (GetResult.cached v, st)) ∧
    (∀ v ops, lookupEntry st name = some (CacheEntry.resolved v) →
      lookupEntry (applyOps st ops) name =
        some (CacheEntry.resolved v)) := by
  refine ⟨?_, ?_, ?_, ?_⟩
  · intro h
    have hc : cacheGet st name =
        (GetResult.pendingHandle st.nextFetchId,
         { entries :=
             (name, CacheEntry.pending st.nextFetchId) :: st.entries,
           nextFetchId := st.nextFetchId + 1,
           fetchLog := (st.nextFetchId, name) :: st.fetchLog }) := by
      unfold cacheGet
      rw [h]
    refine ⟨hc, ?_⟩
    rw [hc]
    show Option.map Prod.snd
        (List.find? (fun p => decide (p.1 = name))
          ((name, CacheEntry.pending st.nextFetchId) :: st.entries)) =
      some (CacheEntry.pending st.nextFetchId)
    rw [List.find?_cons_of_pos _ (by simp)]
    rfl
  · intro i h
    unfold cacheGet
    rw [h]
  · intro v h
    unfold cacheGet
    rw [h]
  · intro v ops h
    exact lookup_resolved_applyOps ops st name v h

/-- Witness for C8: a concrete run — the first `get` for `pkg` on the
empty cache issues fetch 0 and stores the pending handle; a second
`get` in flight returns the same handle unchanged; and after
resolution, the entry survives further gets and resolves of this and
other names. -/
theorem cache_coalescing_witness :
    (cacheGet (⟨[], 0, []⟩ : CacheState Nat) "pkg" =
      (GetResult.pendingHandle 0,
       ⟨[("pkg", CacheEntry.pending 0)], 1, [(0, "pkg")]⟩)) ∧
    (cacheGet
        (⟨[("pkg", CacheEntry.pending 0)], 1, [(0, "pkg")]⟩ :
          CacheState Nat) "pkg" =
      (GetResult.pendingHandle 0,
       ⟨[("pkg", CacheEntry.pending 0)], 1, [(0, "pkg")]⟩)) ∧
    (lookupEntry (applyOps
        (⟨[("pkg", CacheEntry.resolved 7)], 1, [(0, "pkg")]⟩ :
          CacheState Nat)
        [CacheOp.get "pkg", CacheOp.get "other",
         CacheOp.resolve "other" 9, CacheOp.get "pkg"]) "pkg" =
      some (CacheEntry.resolved 7)) :=
  ⟨((cache_coalescing Nat ⟨[], 0, []⟩ "pkg").1 (by decide)).1,
   (cache_coalescing Nat
      ⟨[("pkg", CacheEntry.pending 0)], 1, [(0, "pkg")]⟩ "pkg").2.1 0
     (by decide),
   (cache_coalescing Nat
      ⟨[("pkg", CacheEntry.resolved 7)], 1, [(0, "pkg")]⟩ "pkg").2.2.2 7
     [CacheOp.get "pkg", CacheOp.get "other",
      CacheOp.resolve "other" 9, CacheOp.get "pkg"] (by decide)⟩

end Npmx
